import Mathlib

/-!
Shallow embedding of the from-scratch K-Nearest-Neighbors classifier
`knn_predict` of `src/week_4/SVC and KNN.ipynb`, together with proofs of the
specified properties.

Modelling choices, in one place:

* Feature coordinates are embedded as rationals (the notebook uses numpy
  float64 arrays; every number appearing in the notebook is a small integer,
  and the claims are about the algorithm, not about rounding), labels as
  integers.
* A raised Python exception is modelled by `none`: the caller receives either
  a complete prediction list (`some`) or a single failure with no output.
* `np.sqrt` is applied by the source to the squared distances right before
  `np.argsort`; square roots of nonnegative reals are noncomputable in Lean,
  so the executable embedding sorts by the squared distances and the sorting
  lemmas below prove that this ordering agrees with the ordering by the real
  Euclidean distances `Real.sqrt (Σ (qᵢ - xᵢ)²)`.
* `np.argsort` with its default kind returns the indices `0 .. N-1` in some
  ascending-distance order; the order among EQUAL distances is not guaranteed
  (the default quicksort is documented as not stable).  An executable
  embedding must fix one resolution, and this one resolves equal distances by
  ascending original index — one admissible outcome of the program, and the
  actual one on numpy's small-array insertion-sort path, which covers every
  array in the notebook.  No theorem below depends on this resolution: the
  claims proved about the ranking are phrased with the tie-order-free
  nondecreasing-distance ordering, under hypotheses (pairwise distinct
  distances, a unique closest point, `k ≥ N`, ...) that make the conclusion
  independent of how equal keys are ordered.
* `Counter(ls).most_common(1)[0][0]` returns the key of `ls` with the largest
  multiplicity; among tied keys the one first inserted wins, since `Counter`
  preserves insertion order and `most_common` sorts stably by descending
  count.  Equivalently (duplicates of a key all carry the same count): it is
  the first element of `ls` whose multiplicity in `ls` is maximal, which is
  what the fold in `majority_vote` computes.
-/

namespace KNNSpec

/-- Elementwise subtraction `x - t` of the test point from one training row,
with numpy broadcasting over the last axis: the lengths must agree, or one of
the two operands must have length 1.  `none` models the `ValueError` numpy
raises for incompatible shapes. -/
def rowSub (x t : List ℚ) : Option (List ℚ) :=
  if x.length = t.length then some (List.zipWith (fun a b => a - b) x t)
  else if t.length = 1 then some (x.map (fun a => a - t.headI))
  else if x.length = 1 then some (t.map (fun b => x.headI - b))
  else none

/-- Sum of squares of a vector: `((X_train - test_point) ** 2).sum(axis=1)`
for a single row of the difference. -/
def sqNorm (d : List ℚ) : ℚ := (d.map (fun a => a ^ 2)).sum

/-- The squared Euclidean distance from one training row `x` to the test
point `t`, or `none` on a shape mismatch.  The source takes `np.sqrt` of this
value; the square root is strictly monotone, so it does not change the
ordering used by `argsort` (see the bridge lemmas further down). -/
def sqDistRow (x t : List ℚ) : Option ℚ := (rowSub x t).map sqNorm

/-- Run an `Option`-valued function over a list, failing as soon as any
element fails: a raised exception aborts the surrounding Python loop and the
caller receives no output at all. -/
def mapOpt {α β : Type} (f : α → Option β) : List α → Option (List β)
  | [] => some []
  | a :: as =>
    match f a with
    | none => none
    | some b =>
      match mapOpt f as with
      | none => none
      | some bs => some (b :: bs)

/-- `distances = np.sqrt(((X_train - test_point) ** 2).sum(axis=1))`, up to
the monotone square root (see `sqDistRow`): the list of squared distances
from the test point to every training row. -/
def distances (X_train : List (List ℚ)) (t : List ℚ) : Option (List ℚ) :=
  mapOpt (fun x => sqDistRow x t) X_train

/-- The comparison the embedding uses to realize `np.argsort(distances)`:
ascending distance, with the program's unspecified order among equal
distances resolved here by ascending original index (see the module
docstring; no theorem depends on this resolution). -/
def idxLe (ds : List ℚ) (i j : ℕ) : Prop :=
  ds.getD i 0 < ds.getD j 0 ∨ (ds.getD i 0 = ds.getD j 0 ∧ i ≤ j)

instance (ds : List ℚ) (i j : ℕ) : Decidable (idxLe ds i j) := by
  unfold idxLe; infer_instance

/-- `np.argsort(distances)`: the indices `0 .. N-1` ordered by ascending
distance.  The program leaves the order of equal distances unspecified; the
embedding resolves them by ascending original index. -/
def argsort (ds : List ℚ) : List ℕ :=
  List.insertionSort (idxLe ds) (List.range ds.length)

/-- Python slicing `l[:k]` for an arbitrary integer `k`: the first `k`
elements when `k ≥ 0`, everything but the last `|k|` elements when `k < 0`. -/
def pySlice {α : Type} (l : List α) (k : ℤ) : List α :=
  if 0 ≤ k then l.take k.toNat else l.take (l.length - (-k).toNat)

/-- The fold computing the majority label: scan `cs` with accumulator `b`,
replacing `b` by the scanned element exactly when that element has a strictly
larger multiplicity in the full list `L`.  The result is the first element of
`b :: cs` whose multiplicity in `L` is maximal. -/
def voteFold (L : List ℤ) (c : ℤ) (cs : List ℤ) : ℤ :=
  cs.foldl (fun b d => if L.count b < L.count d then d else b) c

/-- `Counter(L).most_common(1)[0][0]`: the first element of `L` whose
multiplicity in `L` is maximal (see the module docstring for why this equals
the `Counter` computation), and `none` for empty `L`, where `most_common(1)`
is the empty list and the `[0]` indexing raises an `IndexError`. -/
def majority_vote : List ℤ → Option ℤ
  | [] => none
  | c :: cs => some (voteFold (c :: cs) c cs)

/-- The body of the loop in `knn_predict`: the prediction for one test point
`t`, namely the majority label among the `k` training points nearest to `t`. -/
def knn_point (X_train : List (List ℚ)) (y_train : List ℤ) (k : ℤ)
    (t : List ℚ) : Option ℤ :=
  match distances X_train t with
  | none => none
  | some ds =>
    match mapOpt (fun i => y_train[i]?) (pySlice (argsort ds) k) with
    | none => none
    | some nearest_labels => majority_vote nearest_labels

/-- `knn_predict(X_train, y_train, X_test, k=3)` from the notebook: one
predicted label per test point, by majority vote among the `k` nearest
training points under Euclidean distance. -/
def knn_predict (X_train : List (List ℚ)) (y_train : List ℤ)
    (X_test : List (List ℚ)) (k : ℤ := 3) : Option (List ℤ) :=
  mapOpt (knn_point X_train y_train k) X_test

/-- Squared Euclidean distance between two equal-length vectors, written the
way the specification writes it: `sum over d of (q[d] - x[d])^2`. -/
def sqDistL (q x : List ℚ) : ℚ := (List.zipWith (fun a b => (a - b) ^ 2) q x).sum

/-- Euclidean distance `dist(q, x) = sqrt(sum over d of (q[d] - x[d])^2)`, as
a real number. -/
noncomputable def euclidDist (q x : List ℚ) : ℝ :=
  Real.sqrt ((sqDistL q x : ℚ) : ℝ)

/-- The ranking realized by the embedding's `argsort`, expressed with the
real Euclidean distance: ascending distance, with equal distances resolved by
ascending original index.  Used only inside proofs, as the bridge between the
executable sort and the tie-order-free `euclidLE` ordering appearing in the
theorem statements. -/
def euclidRank (q : List ℚ) (X_train : List (List ℚ)) (i j : ℕ) : Prop :=
  euclidDist q (X_train.getD i []) < euclidDist q (X_train.getD j []) ∨
    (euclidDist q (X_train.getD i []) = euclidDist q (X_train.getD j []) ∧ i ≤ j)

/-- Nondecreasing Euclidean distance from the query: the ordering by which
`np.argsort` ranks the training points, independent of how it orders equal
distances.  This is the ordering the theorems are stated with. -/
def euclidLE (q : List ℚ) (X_train : List (List ℚ)) (i j : ℕ) : Prop :=
  euclidDist q (X_train.getD i []) ≤ euclidDist q (X_train.getD j [])

instance (ds : List ℚ) : IsTrans ℕ (idxLe ds) :=
  ⟨by
    intro a b c hab hbc
    rcases hab with h1 | ⟨h1, h1'⟩ <;> rcases hbc with h2 | ⟨h2, h2'⟩
    · exact Or.inl (lt_trans h1 h2)
    · exact Or.inl (h2 ▸ h1)
    · exact Or.inl (h1 ▸ h2)
    · exact Or.inr ⟨h1.trans h2, le_trans h1' h2'⟩⟩

instance (ds : List ℚ) : IsTotal ℕ (idxLe ds) :=
  ⟨by
    intro a b
    rcases lt_trichotomy (ds.getD a 0) (ds.getD b 0) with h | h | h
    · exact Or.inl (Or.inl h)
    · rcases le_total a b with hab | hab
      · exact Or.inl (Or.inr ⟨h, hab⟩)
      · exact Or.inr (Or.inr ⟨h.symm, hab⟩)
    · exact Or.inr (Or.inl h)⟩

instance (q : List ℚ) (X : List (List ℚ)) : IsAntisymm ℕ (euclidRank q X) :=
  ⟨by
    intro a b hab hba
    rcases hab with h1 | ⟨h1, h1'⟩ <;> rcases hba with h2 | ⟨h2, h2'⟩
    · exact absurd h2 (not_lt.mpr (le_of_lt h1))
    · exact absurd h1 (h2 ▸ lt_irrefl _)
    · exact absurd h2 (h1 ▸ lt_irrefl _)
    · exact le_antisymm h1' h2'⟩

theorem mapOpt_length {α β : Type} {f : α → Option β} {l : List α} {bs : List β}
    (h : mapOpt f l = some bs) : bs.length = l.length := by
  induction l generalizing bs with
  | nil => simp [mapOpt] at h; simp [← h]
  | cons a as ih =>
    rcases hfa : f a with _ | b <;> simp [mapOpt, hfa] at h
    rcases hrec : mapOpt f as with _ | bs' <;> simp [hrec] at h
    subst h
    simp [ih hrec]

theorem mapOpt_eq_some_map {α β : Type} {f : α → Option β} {g : α → β} {l : List α}
    (h : ∀ a ∈ l, f a = some (g a)) : mapOpt f l = some (l.map g) := by
  induction l with
  | nil => rfl
  | cons a as ih =>
    have ha := h a (List.mem_cons_self a as)
    have has := ih (fun x hx => h x (List.mem_cons_of_mem a hx))
    simp [mapOpt, ha, has]

theorem mapOpt_getElem? {α β : Type} {f : α → Option β} {l : List α} {bs : List β}
    (h : mapOpt f l = some bs) : ∀ {n : ℕ} {a : α}, l[n]? = some a → bs[n]? = f a := by
  induction l generalizing bs with
  | nil => intro n a hn; simp at hn
  | cons x xs ih =>
    rcases hfx : f x with _ | b <;> simp [mapOpt, hfx] at h
    rcases hrec : mapOpt f xs with _ | bs' <;> simp [hrec] at h
    subst h
    intro n a hn
    cases n with
    | zero => simp at hn; simp [← hn, hfx]
    | succ m => simp at hn ⊢; exact ih hrec hn

theorem mapOpt_mem {α β : Type} {f : α → Option β} {l : List α} {bs : List β}
    (h : mapOpt f l = some bs) : ∀ b ∈ bs, ∃ a ∈ l, f a = some b := by
  induction l generalizing bs with
  | nil => simp [mapOpt] at h; subst h; simp
  | cons x xs ih =>
    rcases hfx : f x with _ | b <;> simp [mapOpt, hfx] at h
    rcases hrec : mapOpt f xs with _ | bs' <;> simp [hrec] at h
    subst h
    intro c hc
    rcases List.mem_cons.mp hc with hc | hc
    · exact ⟨x, List.mem_cons_self x xs, by simp [hfx, hc]⟩
    · rcases ih hrec c hc with ⟨a, ha, hfa⟩
      exact ⟨a, List.mem_cons_of_mem x ha, hfa⟩

theorem mapOpt_none_of_mem {α β : Type} {f : α → Option β} {l : List α} {a : α}
    (ha : a ∈ l) (hfa : f a = none) : mapOpt f l = none := by
  induction l with
  | nil => simp at ha
  | cons x xs ih =>
    rcases List.mem_cons.mp ha with rfl | ha'
    · simp [mapOpt, hfa]
    · rcases hfx : f x with _ | b
      · simp [mapOpt, hfx]
      · simp [mapOpt, hfx, ih ha']

theorem mapOpt_isSome {α β : Type} {f : α → Option β} {l : List α}
    (h : ∀ a ∈ l, ∃ b, f a = some b) : ∃ bs, mapOpt f l = some bs := by
  induction l with
  | nil => exact ⟨[], rfl⟩
  | cons x xs ih =>
    rcases h x (List.mem_cons_self x xs) with ⟨b, hb⟩
    rcases ih (fun a ha => h a (List.mem_cons_of_mem x ha)) with ⟨bs, hbs⟩
    exact ⟨b :: bs, by simp [mapOpt, hb, hbs]⟩

theorem mapOpt_congr {α β : Type} {f g : α → Option β} {l : List α}
    (h : ∀ a ∈ l, f a = g a) : mapOpt f l = mapOpt g l := by
  induction l with
  | nil => rfl
  | cons x xs ih =>
    have hx := h x (List.mem_cons_self x xs)
    have hxs := ih (fun a ha => h a (List.mem_cons_of_mem x ha))
    simp [mapOpt, hx, hxs]

theorem pySlice_nil {α : Type} (k : ℤ) : pySlice ([] : List α) k = [] := by
  unfold pySlice; split <;> simp

theorem pySlice_of_one_le {α : Type} (l : List α) {k : ℤ} (h : 1 ≤ k) :
    pySlice l k = l.take k.toNat := by
  unfold pySlice; rw [if_pos (le_trans zero_le_one h)]

theorem pySlice_all {α : Type} {l : List α} {k : ℤ} (h : (l.length : ℤ) ≤ k) :
    pySlice l k = l := by
  unfold pySlice
  rcases le_or_lt 0 k with hk | hk
  · rw [if_pos hk, List.take_of_length_le ((Int.le_toNat hk).mpr h)]
  · exfalso; omega


theorem pySlice_sublist {α : Type} (l : List α) (k : ℤ) : (pySlice l k).Sublist l := by
  unfold pySlice; split <;> exact List.take_sublist _ _

theorem pySlice_ne_nil {α : Type} {l : List α} {k : ℤ} (hl : l ≠ [])
    (hk : 1 ≤ k ∨ (k < 0 ∧ (-k).toNat < l.length)) : pySlice l k ≠ [] := by
  have hlen : 0 < l.length := List.length_pos.mpr hl
  apply List.ne_nil_of_length_pos
  rcases hk with hk | ⟨hk, hk'⟩
  · rw [pySlice_of_one_le l hk, List.length_take]
    have : 0 < k.toNat := by omega
    omega
  · unfold pySlice
    rw [if_neg (by omega), List.length_take]
    omega

theorem pySlice_eq_nil_of {α : Type} {l : List α} {k : ℤ}
    (h : k = 0 ∨ k ≤ -(l.length : ℤ)) : pySlice l k = [] := by
  rcases h with rfl | h
  · unfold pySlice; rw [if_pos le_rfl]; simp
  · unfold pySlice
    rcases le_or_lt 0 k with hk | hk
    · have h0 : k = 0 := by omega
      rw [if_pos hk, h0]; simp
    · rw [if_neg (not_le.mpr hk)]
      apply List.eq_nil_of_length_eq_zero
      rw [List.length_take]
      omega

theorem sqDistL_nonneg (q x : List ℚ) : 0 ≤ sqDistL q x := by
  induction q generalizing x with
  | nil => simp [sqDistL]
  | cons a as ih =>
    cases x with
    | nil => simp [sqDistL]
    | cons b bs =>
      have h1 : (0 : ℚ) ≤ (a - b) ^ 2 := sq_nonneg _
      have h2 := ih bs
      simp only [sqDistL, List.zipWith_cons_cons, List.sum_cons] at *
      exact add_nonneg h1 h2

theorem sqDistL_comm (q x : List ℚ) : sqDistL q x = sqDistL x q := by
  unfold sqDistL
  rw [List.zipWith_comm_of_comm _ (fun a b => by ring)]

theorem sqDistRow_eq {x t : List ℚ} (h : x.length = t.length) :
    sqDistRow x t = some (sqDistL t x) := by
  unfold sqDistRow rowSub
  rw [if_pos h]
  simp only [Option.map_some']
  congr 1
  unfold sqNorm sqDistL
  rw [List.map_zipWith, List.zipWith_comm_of_comm _ (fun a b => by ring)]

theorem distances_eq {X : List (List ℚ)} {t : List ℚ}
    (h : ∀ x ∈ X, x.length = t.length) :
    distances X t = some (X.map (fun x => sqDistL t x)) :=
  mapOpt_eq_some_map (fun x hx => sqDistRow_eq (h x hx))

theorem argsort_perm (ds : List ℚ) : (argsort ds).Perm (List.range ds.length) :=
  List.perm_insertionSort _ _

theorem argsort_length (ds : List ℚ) : (argsort ds).length = ds.length := by
  rw [(argsort_perm ds).length_eq, List.length_range]

theorem argsort_sorted (ds : List ℚ) : List.Sorted (idxLe ds) (argsort ds) :=
  List.sorted_insertionSort _ _

theorem mem_argsort {ds : List ℚ} {i : ℕ} (h : i ∈ argsort ds) : i < ds.length := by
  have := (argsort_perm ds).mem_iff.mp h
  exact List.mem_range.mp this

theorem argsort_nodup (ds : List ℚ) : (argsort ds).Nodup :=
  ((argsort_perm ds).nodup_iff).mpr (List.nodup_range _)

theorem argsort_ne_nil {ds : List ℚ} (h : ds ≠ []) : argsort ds ≠ [] := by
  apply List.ne_nil_of_length_pos
  rw [argsort_length]
  exact List.length_pos.mpr h

theorem sqrt_cast_lt {a b : ℚ} (ha : 0 ≤ a) :
    Real.sqrt (a : ℝ) < Real.sqrt (b : ℝ) ↔ a < b := by
  rw [Real.sqrt_lt_sqrt_iff (by exact_mod_cast ha)]
  exact Rat.cast_lt

theorem sqrt_cast_eq {a b : ℚ} (ha : 0 ≤ a) (hb : 0 ≤ b) :
    Real.sqrt (a : ℝ) = Real.sqrt (b : ℝ) ↔ a = b := by
  rw [Real.sqrt_inj (by exact_mod_cast ha) (by exact_mod_cast hb)]
  exact Rat.cast_inj

theorem getD_map_sqDist (X : List (List ℚ)) (t : List ℚ) {i : ℕ} (hi : i < X.length) :
    (X.map (fun x => sqDistL t x)).getD i 0 = sqDistL t (X.getD i []) := by
  rw [List.getD_eq_getElem _ _ (by simpa using hi), List.getElem_map,
    List.getD_eq_getElem _ _ hi]

theorem idxLe_iff_euclidRank {t : List ℚ} {X : List (List ℚ)} {i j : ℕ}
    (hi : i < X.length) (hj : j < X.length) :
    idxLe (X.map (fun x => sqDistL t x)) i j ↔ euclidRank t X i j := by
  unfold idxLe euclidRank euclidDist
  rw [getD_map_sqDist X t hi, getD_map_sqDist X t hj,
    sqrt_cast_lt (sqDistL_nonneg _ _), sqrt_cast_eq (sqDistL_nonneg _ _) (sqDistL_nonneg _ _)]

theorem voteFold_spec (L : List ℤ) :
    ∀ (cs : List ℤ) (c : ℤ),
      ∃ pre suf, c :: cs = pre ++ voteFold L c cs :: suf ∧
        (∀ e ∈ pre, L.count e < L.count (voteFold L c cs)) ∧
        (∀ e ∈ suf, L.count e ≤ L.count (voteFold L c cs)) := by
  intro cs
  induction cs with
  | nil => exact fun c => ⟨[], [], rfl, by simp, by simp⟩
  | cons d cs ih =>
    intro c
    have hcons : voteFold L c (d :: cs) = voteFold L (if L.count c < L.count d then d else c) cs := rfl
    by_cases h : L.count c < L.count d
    · rw [if_pos h] at hcons
      rcases ih d with ⟨pre', suf', hdec, hpre, hsuf⟩
      rw [hcons]
      refine ⟨c :: pre', suf', ?_, ?_, hsuf⟩
      · rw [List.cons_append, ← hdec]
      · intro e he
        rcases List.mem_cons.mp he with rfl | he'
        · cases pre' with
          | nil =>
            have : d = voteFold L d cs := by simpa using congrArg (fun l => l.headI) hdec
            rw [← this]; exact h
          | cons e' p'' =>
            have hd : d = e' := by simpa using congrArg (fun l => l.headI) hdec
            have := hpre e' (List.mem_cons_self e' p'')
            rw [← hd] at this
            exact lt_trans h this
        · exact hpre e he'
    · rw [if_neg h] at hcons
      push_neg at h
      rcases ih c with ⟨pre', suf', hdec, hpre, hsuf⟩
      rw [hcons]
      cases pre' with
      | nil =>
        have hr : c = voteFold L c cs := by simpa using congrArg (fun l => l.headI) hdec
        have hcs : cs = suf' := by simpa using congrArg List.tail hdec
        refine ⟨[], d :: cs, ?_, by simp, ?_⟩
        · simp [← hr]
        · intro e he
          rcases List.mem_cons.mp he with rfl | he'
          · rw [← hr]; exact h
          · rw [hcs] at he'; exact hsuf e he'
      | cons e' p'' =>
        have he' : c = e' := by simpa using congrArg (fun l => l.headI) hdec
        have hcs : cs = p'' ++ voteFold L c cs :: suf' := by
          simpa using congrArg List.tail hdec
        refine ⟨c :: d :: p'', suf', ?_, ?_, hsuf⟩
        · rw [List.cons_append, List.cons_append, ← hcs]
        · intro e he
          have hc : L.count c < L.count (voteFold L c cs) := by
            have := hpre e' (List.mem_cons_self e' p'')
            rw [← he'] at this; exact this
          rcases List.mem_cons.mp he with rfl | he2
          · exact hc
          · rcases List.mem_cons.mp he2 with rfl | he3
            · exact lt_of_le_of_lt h hc
            · exact hpre e (List.mem_cons_of_mem e' he3)

theorem majority_vote_spec {L : List ℤ} {p : ℤ} (h : majority_vote L = some p) :
    ∃ pre suf, L = pre ++ p :: suf ∧ (∀ e ∈ pre, L.count e < L.count p) ∧
      (∀ e ∈ suf, L.count e ≤ L.count p) := by
  cases L with
  | nil => simp [majority_vote] at h
  | cons c cs =>
    have hp : voteFold (c :: cs) c cs = p := by
      simpa [majority_vote] using h
    rw [← hp]
    exact voteFold_spec (c :: cs) cs c

theorem majority_vote_isSome {L : List ℤ} (h : L ≠ []) :
    ∃ p, majority_vote L = some p := by
  cases L with
  | nil => exact absurd rfl h
  | cons c cs => exact ⟨voteFold (c :: cs) c cs, rfl⟩

theorem majority_vote_mem {L : List ℤ} {p : ℤ} (h : majority_vote L = some p) :
    p ∈ L := by
  rcases majority_vote_spec h with ⟨pre, suf, hdec, -, -⟩
  rw [hdec]; simp

theorem majority_vote_count_le {L : List ℤ} {p : ℤ} (h : majority_vote L = some p) :
    ∀ l ∈ L, L.count l ≤ L.count p := by
  rcases majority_vote_spec h with ⟨pre, suf, hdec, hpre, hsuf⟩
  intro l hl
  rw [hdec] at hl
  rcases List.mem_append.mp hl with h1 | h2
  · exact le_of_lt (hpre l h1)
  · rcases List.mem_cons.mp h2 with rfl | h3
    · exact le_refl _
    · exact hsuf l h3

theorem majority_vote_first {L : List ℤ} {p : ℤ} (h : majority_vote L = some p) :
    ∀ l ∈ L, L.count l = L.count p → L.indexOf p ≤ L.indexOf l := by
  rcases majority_vote_spec h with ⟨pre, suf, hdec, hpre, hsuf⟩
  intro l hl hcount
  have hpnot : p ∉ pre := fun hp => lt_irrefl _ (hpre p hp)
  have hlnot : l ∉ pre := fun hp => by
    have := hpre l hp; omega
  rw [hdec, List.indexOf_append_of_not_mem hpnot, List.indexOf_append_of_not_mem hlnot,
    List.indexOf_cons_self]
  omega

theorem knn_point_eq_vote {X : List (List ℚ)} {y : List ℤ} {k : ℤ} {t : List ℚ}
    (hdim : ∀ x ∈ X, x.length = t.length) (hlen : y.length = X.length) :
    knn_point X y k t =
      majority_vote ((pySlice (argsort (X.map (fun x => sqDistL t x))) k).map
        (fun i => y.getD i 0)) := by
  have hg : ∀ i ∈ pySlice (argsort (X.map (fun x => sqDistL t x))) k,
      y[i]? = some (y.getD i 0) := by
    intro i hi
    have h2 : i ∈ argsort (X.map fun x => sqDistL t x) :=
      (pySlice_sublist _ k).subset hi
    have h3 := mem_argsort h2
    rw [List.length_map] at h3
    have h4 : i < y.length := by omega
    rw [List.getElem?_eq_getElem h4, List.getD_eq_getElem y 0 h4]
  unfold knn_point
  simp only [distances_eq hdim, mapOpt_eq_some_map hg]

theorem knn_point_total {X : List (List ℚ)} {y : List ℤ} {k : ℤ} {t : List ℚ}
    (hdim : ∀ x ∈ X, x.length = t.length) (hlen : y.length = X.length)
    (hN : X ≠ []) (hk : 1 ≤ k ∨ (k < 0 ∧ (-k).toNat < X.length)) :
    ∃ p, knn_point X y k t = some p ∧ p ∈ y := by
  rw [knn_point_eq_vote hdim hlen]
  have hnnne : pySlice (argsort (X.map (fun x => sqDistL t x))) k ≠ [] := by
    apply pySlice_ne_nil
    · apply argsort_ne_nil; simpa using hN
    · rcases hk with h | ⟨h1, h2⟩
      · exact Or.inl h
      · refine Or.inr ⟨h1, ?_⟩
        rw [argsort_length, List.length_map]
        exact h2
  have hmapne : (pySlice (argsort (X.map (fun x => sqDistL t x))) k).map
      (fun i => y.getD i 0) ≠ [] := by simpa using hnnne
  rcases majority_vote_isSome hmapne with ⟨p, hp⟩
  refine ⟨p, hp, ?_⟩
  rcases List.mem_map.mp (majority_vote_mem hp) with ⟨i, hi, hpi⟩
  have h2 : i ∈ argsort (X.map fun x => sqDistL t x) :=
    (pySlice_sublist _ k).subset hi
  have h3 := mem_argsort h2
  rw [List.length_map] at h3
  have h4 : i < y.length := by omega
  rw [← hpi, List.getD_eq_getElem y 0 h4]
  exact List.getElem_mem h4

theorem knn_predict_total {X : List (List ℚ)} {y : List ℤ} {T : List (List ℚ)} {k : ℤ}
    (hdim : ∀ x ∈ X, ∀ q ∈ T, x.length = q.length) (hlen : y.length = X.length)
    (hN : X ≠ []) (hk : 1 ≤ k ∨ (k < 0 ∧ (-k).toNat < X.length)) :
    ∃ out, knn_predict X y T k = some out ∧ out.length = T.length ∧
      (∀ (n : ℕ) (q : List ℚ), T[n]? = some q → out[n]? = knn_point X y k q) ∧
      (∀ p ∈ out, p ∈ y) := by
  have hpt : ∀ q ∈ T, ∃ p, knn_point X y k q = some p := by
    intro q hq
    rcases knn_point_total (fun x hx => hdim x hx q hq) hlen hN hk with ⟨p, hp, -⟩
    exact ⟨p, hp⟩
  rcases mapOpt_isSome hpt with ⟨out, hout⟩
  refine ⟨out, hout, mapOpt_length hout, fun n q hq => mapOpt_getElem? hout hq,
    fun p hp => ?_⟩
  rcases mapOpt_mem hout p hp with ⟨q, hqT, hqp⟩
  rcases knn_point_total (fun x hx => hdim x hx q hqT) hlen hN hk with ⟨p', hp', hp'y⟩
  rw [hp'] at hqp
  rw [← Option.some_inj.mp hqp]
  exact hp'y

theorem map_getD_range (y : List ℤ) :
    (List.range y.length).map (fun i => y.getD i 0) = y := by
  apply List.ext_getElem
  · simp
  · intro n h1 h2
    rw [List.getElem_map, List.getElem_range, List.getD_eq_getElem y 0 h2]

theorem labels_perm {y : List ℤ} {idxs : List ℕ} (h : idxs.Perm (List.range y.length)) :
    (idxs.map (fun i => y.getD i 0)).Perm y := by
  have h2 := h.map (fun i => y.getD i 0)
  rw [map_getD_range] at h2
  exact h2

theorem argsort_sorted_euclid (t : List ℚ) (X : List (List ℚ)) :
    List.Sorted (euclidRank t X) (argsort (X.map fun x => sqDistL t x)) := by
  have hs := argsort_sorted (X.map fun x => sqDistL t x)
  refine List.Pairwise.imp_of_mem ?_ hs
  intro i j hi hj hij
  have hi' : i < X.length := by
    have := mem_argsort hi; rw [List.length_map] at this; exact this
  have hj' : j < X.length := by
    have := mem_argsort hj; rw [List.length_map] at this; exact this
  exact (idxLe_iff_euclidRank hi' hj').mp hij

theorem euclidRank_imp_le {q : List ℚ} {X : List (List ℚ)} {i j : ℕ}
    (h : euclidRank q X i j) : euclidLE q X i j := by
  rcases h with h | ⟨h, -⟩
  · exact le_of_lt h
  · exact le_of_eq h

theorem argsort_sorted_le (q : List ℚ) (X : List (List ℚ)) :
    List.Pairwise (euclidLE q X) (argsort (X.map fun x => sqDistL q x)) :=
  (argsort_sorted_euclid q X).imp euclidRank_imp_le

theorem sorted_perm_unique {t : List ℚ} {X : List (List ℚ)} {idxs : List ℕ}
    (hp : idxs.Perm (List.range X.length)) (hs : List.Sorted (euclidRank t X) idxs) :
    idxs = argsort (X.map fun x => sqDistL t x) := by
  refine List.eq_of_perm_of_sorted ?_ hs (argsort_sorted_euclid t X)
  have h2 := argsort_perm (X.map fun x => sqDistL t x)
  rw [List.length_map] at h2
  exact hp.trans h2.symm

theorem sorted_le_eq_argsort {q : List ℚ} {X : List (List ℚ)} {idxs : List ℕ}
    (hdist : ∀ i < X.length, ∀ j < X.length, i ≠ j →
      euclidDist q (X.getD i []) ≠ euclidDist q (X.getD j []))
    (hp : idxs.Perm (List.range X.length))
    (hs : List.Pairwise (euclidLE q X) idxs) :
    idxs = argsort (X.map fun x => sqDistL q x) := by
  apply sorted_perm_unique hp
  have hnd : List.Pairwise (fun a b : ℕ => a ≠ b) idxs :=
    hp.nodup_iff.mpr (List.nodup_range _)
  have hmem : ∀ i ∈ idxs, i < X.length := by
    intro i hi
    exact List.mem_range.mp (hp.mem_iff.mp hi)
  refine List.Pairwise.imp_of_mem ?_ (hs.and hnd)
  intro a b ha hb hab
  rcases hab with ⟨hle, hne⟩
  exact Or.inl (lt_of_le_of_ne hle (hdist a (hmem a ha) b (hmem b hb) hne))

theorem distances_length {X : List (List ℚ)} {t : List ℚ} {ds : List ℚ}
    (h : distances X t = some ds) : ds.length = X.length :=
  mapOpt_length h

theorem knn_point_nil (y : List ℤ) (k : ℤ) (t : List ℚ) :
    knn_point [] y k t = none := by
  unfold knn_point distances argsort
  simp [mapOpt, pySlice_nil, majority_vote, List.insertionSort]

theorem knn_point_ds_none (y : List ℤ) (k : ℤ) {X : List (List ℚ)} {t : List ℚ}
    (hds : distances X t = none) : knn_point X y k t = none := by
  unfold knn_point
  rw [hds]

theorem knn_point_ds_some (y : List ℤ) (k : ℤ) {X : List (List ℚ)} {t : List ℚ}
    {ds : List ℚ} (hds : distances X t = some ds) :
    knn_point X y k t =
      match mapOpt (fun i => y[i]?) (pySlice (argsort ds) k) with
      | none => none
      | some ls => majority_vote ls := by
  unfold knn_point
  rw [hds]

theorem knn_point_none_of_slice_nil {X : List (List ℚ)} (y : List ℤ) {k : ℤ}
    (t : List ℚ) (hk : k = 0 ∨ k ≤ -(X.length : ℤ)) :
    knn_point X y k t = none := by
  cases hds : distances X t with
  | none => exact knn_point_ds_none y k hds
  | some ds =>
    have hnil : pySlice (argsort ds) k = [] := by
      apply pySlice_eq_nil_of
      rcases hk with h0 | hneg
      · exact Or.inl h0
      · right
        rw [argsort_length, distances_length hds]
        exact hneg
    rw [knn_point_ds_some y k hds, hnil]
    rfl

/-- C2: on the notebook's training set `[[1,2],[2,3],[3,3],[5,4],[6,5]]` with
labels `[0,0,0,1,1]`, query points `[[1,2],[5,3]]` and `k = 3`, `knn_predict`
returns exactly the label sequence `[0, 1]`. -/
theorem claim2_concrete_example :
    knn_predict [[1,2],[2,3],[3,3],[5,4],[6,5]] [0,0,0,1,1] [[1,2],[5,3]] 3 =
      some [0, 1] := by
  norm_num [knn_predict, knn_point, distances, mapOpt, sqDistRow, rowSub, sqNorm,
    argsort, idxLe, List.insertionSort, List.orderedInsert, pySlice,
    majority_vote, voteFold]

/-- C3 (counterexample to the claim as stated): the claim says `knn_predict`
fails whenever `k ≤ 0`, but for `k = -1` on the notebook's data the function
silently returns a complete prediction sequence (Python slicing `[:-1]` keeps
the `N - 1` nearest neighbors). -/
theorem claim3_counterexample :
    (-1 : ℤ) ≤ 0 ∧
    knn_predict [[1,2],[2,3],[3,3],[5,4],[6,5]] [0,0,0,1,1] [[1,2],[5,3]] (-1) =
      some [0, 1] := by
  constructor
  · norm_num
  · norm_num [knn_predict, knn_point, distances, mapOpt, sqDistRow, rowSub,
      sqNorm, argsort, idxLe, List.insertionSort, List.orderedInsert, pySlice,
      majority_vote, voteFold]

/-- C3 (amended): `knn_predict` performs no up-front validation.  It returns a
failure and no output (a) for a nonempty query set when the training set is
empty, (b) for a nonempty query set when the slice selects no neighbors, i.e.
`k = 0` or `k ≤ -N` (the failure arises at the vote, an `IndexError`, not an
`InvalidArgument` validation), and (c) when some query point's dimensionality
is incompatible with some training point's (equal lengths and numpy
length-1 broadcasting both fail).  For `-N < k < 0` it instead silently
returns a complete prediction sequence, and (d) for every valid input
(matching dimensions, nonempty training set, `k ≥ 1`) it returns a complete
prediction sequence, one label per query point. -/
theorem claim3_error_behavior :
    (∀ (y : List ℤ) (T : List (List ℚ)) (k : ℤ) (t : List ℚ), t ∈ T →
      knn_predict [] y T k = none) ∧
    (∀ (X : List (List ℚ)) (y : List ℤ) (T : List (List ℚ)) (k : ℤ)
      (t : List ℚ), t ∈ T → (k = 0 ∨ k ≤ -(X.length : ℤ)) →
      knn_predict X y T k = none) ∧
    (∀ (X : List (List ℚ)) (y : List ℤ) (T : List (List ℚ)) (k : ℤ)
      (x t : List ℚ), t ∈ T → x ∈ X → x.length ≠ t.length → x.length ≠ 1 →
      t.length ≠ 1 → knn_predict X y T k = none) ∧
    (∀ (X : List (List ℚ)) (y : List ℤ) (T : List (List ℚ)) (k : ℤ),
      (∀ x ∈ X, ∀ q ∈ T, x.length = q.length) → y.length = X.length →
      X ≠ [] → (1 ≤ k ∨ (k < 0 ∧ (-k).toNat < X.length)) →
      ∃ out, knn_predict X y T k = some out ∧ out.length = T.length) := by
  refine ⟨?_, ?_, ?_, ?_⟩
  · intro y T k t ht
    exact mapOpt_none_of_mem ht (knn_point_nil y k t)
  · intro X y T k t ht hk
    exact mapOpt_none_of_mem ht (knn_point_none_of_slice_nil y t hk)
  · intro X y T k x t ht hx hxt hx1 ht1
    have hrow : rowSub x t = none := by
      unfold rowSub
      rw [if_neg hxt, if_neg ht1, if_neg hx1]
    have hsq : sqDistRow x t = none := by
      unfold sqDistRow
      rw [hrow]
      rfl
    have hds : distances X t = none := mapOpt_none_of_mem hx hsq
    have hpt : knn_point X y k t = none := by
      unfold knn_point
      rw [hds]
    exact mapOpt_none_of_mem ht hpt
  · intro X y T k hdim hlen hN hk
    rcases knn_predict_total hdim hlen hN hk with ⟨out, hout, hl, -, -⟩
    exact ⟨out, hout, hl⟩

/-- C5: for every valid input the output of `knn_predict` has exactly one
label per query point, positionally aligned (`out[n]` is the prediction
`knn_point` computes for `T[n]`); and for an empty query set the output is
the empty sequence regardless of training data and `k`. -/
theorem claim5_output_shape (X : List (List ℚ)) (y : List ℤ)
    (T : List (List ℚ)) (k : ℤ)
    (hdim : ∀ x ∈ X, ∀ q ∈ T, x.length = q.length) (hlen : y.length = X.length)
    (hN : X ≠ []) (hk : 1 ≤ k) :
    (∃ out, knn_predict X y T k = some out ∧ out.length = T.length ∧
      ∀ (n : ℕ) (q : List ℚ), T[n]? = some q → out[n]? = knn_point X y k q) ∧
    (∀ (X' : List (List ℚ)) (y' : List ℤ) (k' : ℤ),
      knn_predict X' y' [] k' = some []) := by
  constructor
  · rcases knn_predict_total hdim hlen hN (Or.inl hk) with ⟨out, hout, hl, hp, -⟩
    exact ⟨out, hout, hl, hp⟩
  · intro X' y' k'
    rfl

/-- C6: whenever `k` is at least the training-set size `N`, `knn_predict`
behaves identically to the call with `k = N`; and under a strict majority
label `c` of the training labels, every prediction equals `c`. -/
theorem claim6_k_clamped (X : List (List ℚ)) (y : List ℤ) (T : List (List ℚ))
    (k : ℤ) (hk : (X.length : ℤ) ≤ k) :
    knn_predict X y T k = knn_predict X y T (X.length : ℤ) ∧
    (∀ c : ℤ, c ∈ y → (∀ l ∈ y, l ≠ c → y.count l < y.count c) →
      (∀ x ∈ X, ∀ q ∈ T, x.length = q.length) → y.length = X.length →
      X ≠ [] →
      ∃ out, knn_predict X y T k = some out ∧ ∀ p ∈ out, p = c) := by
  constructor
  · unfold knn_predict
    apply mapOpt_congr
    intro t ht
    cases hds : distances X t with
    | none =>
      rw [knn_point_ds_none y k hds, knn_point_ds_none y (X.length : ℤ) hds]
    | some ds =>
      have hal : ((argsort ds).length : ℤ) = (X.length : ℤ) := by
        rw [argsort_length, distances_length hds]
      rw [knn_point_ds_some y k hds, knn_point_ds_some y (X.length : ℤ) hds,
        pySlice_all (by rw [hal]; exact hk), pySlice_all (le_of_eq hal)]
  · intro c hc hmaj hdim hlen hN
    have h1 : (1 : ℤ) ≤ k := by
      have h2 : 1 ≤ X.length := List.length_pos.mpr hN
      have h3 : (1 : ℤ) ≤ (X.length : ℤ) := by exact_mod_cast h2
      omega
    rcases knn_predict_total hdim hlen hN (Or.inl h1) with ⟨out, hout, -, -, -⟩
    refine ⟨out, hout, fun p hp => ?_⟩
    rcases mapOpt_mem hout p hp with ⟨q, hqT, hqp⟩
    rw [knn_point_eq_vote (fun x hx => hdim x hx q hqT) hlen] at hqp
    have hal : ((argsort (X.map fun x => sqDistL q x)).length : ℤ) = (X.length : ℤ) := by
      rw [argsort_length, List.length_map]
    rw [pySlice_all (by rw [hal]; exact hk)] at hqp
    have hperm : ((argsort (X.map fun x => sqDistL q x)).map
        (fun i => y.getD i 0)).Perm y := by
      apply labels_perm
      have h4 := argsort_perm (X.map fun x => sqDistL q x)
      rw [List.length_map] at h4
      rw [hlen]
      exact h4
    have hpy : p ∈ y := hperm.subset (majority_vote_mem hqp)
    by_contra hne
    have h5 : y.count p < y.count c := hmaj p hpy hne
    have h6 := majority_vote_count_le hqp c (hperm.symm.subset hc)
    rw [hperm.count_eq c, hperm.count_eq p] at h6
    omega

/-- C8: `knn_predict` is deterministic: two calls on identical inputs return
identical outputs (the embedding of the source as a pure function also
witnesses that no input or persistent state is mutated). -/
theorem claim8_deterministic (X₁ X₂ : List (List ℚ)) (y₁ y₂ : List ℤ)
    (T₁ T₂ : List (List ℚ)) (k₁ k₂ : ℤ) (hX : X₁ = X₂) (hy : y₁ = y₂)
    (hT : T₁ = T₂) (hk : k₁ = k₂) :
    knn_predict X₁ y₁ T₁ k₁ = knn_predict X₂ y₂ T₂ k₂ := by
  subst hX; subst hy; subst hT; subst hk; rfl

/-- C9: for every valid input every predicted label is one of the training
labels; consequently, when all training labels are identical every
prediction equals that label, regardless of `k` and of the query points. -/
theorem claim9_labels_from_training (X : List (List ℚ)) (y : List ℤ)
    (T : List (List ℚ)) (k : ℤ)
    (hdim : ∀ x ∈ X, ∀ q ∈ T, x.length = q.length) (hlen : y.length = X.length)
    (hN : X ≠ []) (hk : 1 ≤ k) :
    ∃ out, knn_predict X y T k = some out ∧ (∀ p ∈ out, p ∈ y) ∧
      ∀ c : ℤ, (∀ l ∈ y, l = c) → ∀ p ∈ out, p = c := by
  rcases knn_predict_total hdim hlen hN (Or.inl hk) with ⟨out, hout, -, -, hmem⟩
  exact ⟨out, hout, hmem, fun c hc p hp => hc p (hmem p hp)⟩

/-- C10: when the parameter `k` is omitted, `knn_predict` uses the default
`k = 3`: the call without `k` equals the call with `k = 3`. -/
theorem claim10_default_k (X : List (List ℚ)) (y : List ℤ)
    (T : List (List ℚ)) :
    knn_predict X y T = knn_predict X y T 3 := rfl

/-- C1: for every query point `q` (at position `n` of the query set) whose
Euclidean distances to the training points are pairwise distinct — the
situation in which "the k training points with smallest distance" is
well-defined, independent of how `np.argsort` orders equal keys — under
valid inputs `knn_predict` computes the prediction at position `n` by ranking
all training indices by nondecreasing Euclidean distance
`sqrt(sum over d of (q[d] - x[d])^2)` from `q` (a ranking that is then
unique: any distance-sorted permutation of the indices equals it), selecting
the first `k`, and returning a label of maximal occurrence count among the
labels of those `k` points. -/
theorem claim1_euclidean_knn_majority (X : List (List ℚ)) (y : List ℤ)
    (T : List (List ℚ)) (k : ℤ) (n : ℕ) (q : List ℚ)
    (hdim : ∀ x ∈ X, ∀ t ∈ T, x.length = t.length) (hlen : y.length = X.length)
    (hN : X ≠ []) (hk : 1 ≤ k) (hq : T[n]? = some q)
    (hdist : ∀ i < X.length, ∀ j < X.length, i ≠ j →
      euclidDist q (X.getD i []) ≠ euclidDist q (X.getD j [])) :
    ∃ out idxs,
      knn_predict X y T k = some out ∧
      idxs.Perm (List.range X.length) ∧
      List.Pairwise (euclidLE q X) idxs ∧
      (∀ idxs' : List ℕ, idxs'.Perm (List.range X.length) →
        List.Pairwise (euclidLE q X) idxs' → idxs' = idxs) ∧
      ∃ p kl, kl = (idxs.take k.toNat).map (fun i => y.getD i 0) ∧
        out[n]? = some p ∧ p ∈ kl ∧
        ∀ l ∈ kl, kl.count l ≤ kl.count p := by
  have hqT : q ∈ T := List.getElem?_mem hq
  rcases knn_predict_total hdim hlen hN (Or.inl hk) with ⟨out, hout, -, hpos, -⟩
  refine ⟨out, argsort (X.map fun x => sqDistL q x), hout, ?_, argsort_sorted_le q X,
    fun idxs' hp hs => sorted_le_eq_argsort hdist hp hs, ?_⟩
  · have h2 := argsort_perm (X.map fun x => sqDistL q x)
    rwa [List.length_map] at h2
  · have hout_n : out[n]? = knn_point X y k q := hpos n q hq
    rw [knn_point_eq_vote (fun x hx => hdim x hx q hqT) hlen,
      pySlice_of_one_le _ hk] at hout_n
    have hne : ((argsort (X.map fun x => sqDistL q x)).take k.toNat).map
        (fun i => y.getD i 0) ≠ [] := by
      apply List.ne_nil_of_length_pos
      rw [List.length_map, List.length_take]
      have h1 : argsort (X.map fun x => sqDistL q x) ≠ [] :=
        argsort_ne_nil (by simpa using hN)
      have h2 : 0 < k.toNat := by omega
      exact lt_min h2 (List.length_pos.mpr h1)
    rcases majority_vote_isSome hne with ⟨p, hp⟩
    rw [hp] at hout_n
    exact ⟨p, _, rfl, hout_n, majority_vote_mem hp, majority_vote_count_le hp⟩

/-- C7: for `k = 1`, for every query point whose closest training point under
Euclidean distance is unique, the prediction equals the label of that single
closest training point. -/
theorem claim7_k1_unique_nearest (X : List (List ℚ)) (y : List ℤ)
    (T : List (List ℚ)) (n : ℕ) (q : List ℚ) (i0 : ℕ)
    (hdim : ∀ x ∈ X, ∀ t ∈ T, x.length = t.length) (hlen : y.length = X.length)
    (hq : T[n]? = some q) (hi : i0 < X.length)
    (hmin : ∀ j < X.length, j ≠ i0 →
      euclidDist q (X.getD i0 []) < euclidDist q (X.getD j [])) :
    ∃ out, knn_predict X y T 1 = some out ∧ out[n]? = some (y.getD i0 0) := by
  have hN : X ≠ [] := by
    intro h; rw [h] at hi; simp at hi
  have hqT : q ∈ T := List.getElem?_mem hq
  rcases knn_predict_total hdim hlen hN (Or.inl le_rfl) with ⟨out, hout, -, hpos, -⟩
  refine ⟨out, hout, ?_⟩
  have hout_n : out[n]? = knn_point X y 1 q := hpos n q hq
  rw [knn_point_eq_vote (fun x hx => hdim x hx q hqT) hlen,
    pySlice_of_one_le _ le_rfl] at hout_n
  cases harg : argsort (X.map fun x => sqDistL q x) with
  | nil => exact absurd harg (argsort_ne_nil (by simpa using hN))
  | cons h0 rest =>
    rw [harg] at hout_n
    have ht1 : ((h0 :: rest).take (1 : ℤ).toNat) = [h0] := by simp
    rw [ht1] at hout_n
    have hmem0 : h0 ∈ argsort (X.map fun x => sqDistL q x) := by
      rw [harg]; exact List.mem_cons_self _ _
    have hlt : h0 < X.length := by
      have := mem_argsort hmem0; rwa [List.length_map] at this
    by_cases heq : h0 = i0
    · rw [heq] at hout_n
      rw [hout_n]
      rfl
    · exfalso
      have hi0mem : i0 ∈ argsort (X.map fun x => sqDistL q x) := by
        apply (argsort_perm _).mem_iff.mpr
        rw [List.length_map]
        exact List.mem_range.mpr hi
      rw [harg] at hi0mem
      rcases List.mem_cons.mp hi0mem with h | h
      · exact heq h.symm
      · have hsorted := argsort_sorted_euclid q X
        rw [harg] at hsorted
        have hrel := List.rel_of_pairwise_cons hsorted h
        have hstrict := hmin h0 hlt heq
        rcases hrel with h2 | ⟨h2, -⟩
        · exact absurd hstrict (not_lt.mpr (le_of_lt h2))
        · rw [h2] at hstrict
          exact lt_irrefl _ hstrict

theorem euclidDist_lt_of_sqDistL_lt {q x x' : List ℚ}
    (h : sqDistL q x < sqDistL q x') : euclidDist q x < euclidDist q x' := by
  unfold euclidDist
  exact (sqrt_cast_lt (sqDistL_nonneg q x)).mpr h

theorem euclidDist_ne_of_sqDistL_ne {q x x' : List ℚ}
    (h : sqDistL q x ≠ sqDistL q x') : euclidDist q x ≠ euclidDist q x' := by
  unfold euclidDist
  intro hc
  exact h ((sqrt_cast_eq (sqDistL_nonneg q x) (sqDistL_nonneg q x')).mp hc)

/-- C1 witness: the C1 theorem applied to the notebook data, query position 0
(query point [1,2], whose squared distances to the five training points are
the pairwise distinct 0, 2, 5, 20, 34), k = 3, with every hypothesis
discharged concretely. -/
theorem claim1_witness :
    ((∀ x ∈ ([[1,2],[2,3],[3,3],[5,4],[6,5]] : List (List ℚ)),
        ∀ t ∈ ([[1,2],[5,3]] : List (List ℚ)), x.length = t.length) ∧
      ([0,0,0,1,1] : List ℤ).length =
        ([[1,2],[2,3],[3,3],[5,4],[6,5]] : List (List ℚ)).length ∧
      ([[1,2],[2,3],[3,3],[5,4],[6,5]] : List (List ℚ)) ≠ [] ∧ (1 : ℤ) ≤ 3 ∧
      ([[1,2],[5,3]] : List (List ℚ))[0]? = some [1,2] ∧
      (∀ i < ([[1,2],[2,3],[3,3],[5,4],[6,5]] : List (List ℚ)).length,
        ∀ j < ([[1,2],[2,3],[3,3],[5,4],[6,5]] : List (List ℚ)).length, i ≠ j →
        euclidDist [1,2]
            (([[1,2],[2,3],[3,3],[5,4],[6,5]] : List (List ℚ)).getD i []) ≠
          euclidDist [1,2]
            (([[1,2],[2,3],[3,3],[5,4],[6,5]] : List (List ℚ)).getD j []))) ∧
    (∃ out idxs,
      knn_predict [[1,2],[2,3],[3,3],[5,4],[6,5]] [0,0,0,1,1] [[1,2],[5,3]] 3 =
        some out ∧
      idxs.Perm (List.range
        ([[1,2],[2,3],[3,3],[5,4],[6,5]] : List (List ℚ)).length) ∧
      List.Pairwise (euclidLE [1,2] [[1,2],[2,3],[3,3],[5,4],[6,5]]) idxs ∧
      (∀ idxs' : List ℕ, idxs'.Perm (List.range
          ([[1,2],[2,3],[3,3],[5,4],[6,5]] : List (List ℚ)).length) →
        List.Pairwise (euclidLE [1,2] [[1,2],[2,3],[3,3],[5,4],[6,5]]) idxs' →
        idxs' = idxs) ∧
      ∃ p kl, kl = (idxs.take (3 : ℤ).toNat).map
          (fun i => ([0,0,0,1,1] : List ℤ).getD i 0) ∧
        out[0]? = some p ∧ p ∈ kl ∧
        ∀ l ∈ kl, kl.count l ≤ kl.count p) := by
  have hdist : ∀ i < ([[1,2],[2,3],[3,3],[5,4],[6,5]] : List (List ℚ)).length,
      ∀ j < ([[1,2],[2,3],[3,3],[5,4],[6,5]] : List (List ℚ)).length, i ≠ j →
      euclidDist [1,2]
          (([[1,2],[2,3],[3,3],[5,4],[6,5]] : List (List ℚ)).getD i []) ≠
        euclidDist [1,2]
          (([[1,2],[2,3],[3,3],[5,4],[6,5]] : List (List ℚ)).getD j []) := by
    intro i hi j hj hne
    have hi5 : i < 5 := by simpa using hi
    have hj5 : j < 5 := by simpa using hj
    clear hi hj
    interval_cases i <;> interval_cases j <;>
      first
        | exact absurd rfl hne
        | exact euclidDist_ne_of_sqDistL_ne (by norm_num [sqDistL])
  constructor
  · exact ⟨by decide, by decide, by decide, by decide, by simp, hdist⟩
  · exact claim1_euclidean_knn_majority _ _ _ 3 0 [1,2]
      (by decide) (by decide) (by decide) (by decide) (by simp) hdist

/-- C3 amended-claim witness: each conjunct of the amended theorem applied at
a concrete input. -/
theorem claim3_witness :
    knn_predict [] [0] [[(1:ℚ)]] 3 = none ∧
    knn_predict [[(1:ℚ),2],[2,3]] [0,1] [[(1:ℚ),2]] 0 = none ∧
    knn_predict [[(1:ℚ),2]] [0] [[(1:ℚ),2,3]] 3 = none ∧
    (∃ out, knn_predict [[(1:ℚ),2],[2,3]] [0,1] [[(1:ℚ),2]] 1 = some out ∧
      out.length = ([[(1:ℚ),2]] : List (List ℚ)).length) := by
  refine ⟨?_, ?_, ?_, ?_⟩
  · exact claim3_error_behavior.1 [0] [[(1:ℚ)]] 3 [(1:ℚ)] (by simp)
  · exact claim3_error_behavior.2.1 [[(1:ℚ),2],[2,3]] [0,1] [[(1:ℚ),2]] 0
      [(1:ℚ),2] (by simp) (Or.inl rfl)
  · exact claim3_error_behavior.2.2.1 [[(1:ℚ),2]] [0] [[(1:ℚ),2,3]] 3
      [(1:ℚ),2] [(1:ℚ),2,3] (by simp) (by simp) (by norm_num) (by norm_num)
      (by norm_num)
  · exact claim3_error_behavior.2.2.2 [[(1:ℚ),2],[2,3]] [0,1] [[(1:ℚ),2]] 1
      (by decide) (by decide) (by decide) (Or.inl (by decide))

/-- C5 witness: the C5 theorem applied to the notebook data with k = 3. -/
theorem claim5_witness :
    ((∀ x ∈ ([[1,2],[2,3],[3,3],[5,4],[6,5]] : List (List ℚ)),
        ∀ t ∈ ([[1,2],[5,3]] : List (List ℚ)), x.length = t.length) ∧
      ([0,0,0,1,1] : List ℤ).length =
        ([[1,2],[2,3],[3,3],[5,4],[6,5]] : List (List ℚ)).length ∧
      ([[1,2],[2,3],[3,3],[5,4],[6,5]] : List (List ℚ)) ≠ [] ∧ (1 : ℤ) ≤ 3) ∧
    ((∃ out, knn_predict [[1,2],[2,3],[3,3],[5,4],[6,5]] [0,0,0,1,1]
        [[1,2],[5,3]] 3 = some out ∧
      out.length = ([[1,2],[5,3]] : List (List ℚ)).length ∧
      ∀ (n : ℕ) (q : List ℚ), ([[1,2],[5,3]] : List (List ℚ))[n]? = some q →
        out[n]? = knn_point [[1,2],[2,3],[3,3],[5,4],[6,5]] [0,0,0,1,1] 3 q) ∧
    (∀ (X' : List (List ℚ)) (y' : List ℤ) (k' : ℤ),
      knn_predict X' y' [] k' = some [])) := by
  constructor
  · exact ⟨by decide, by decide, by decide, by decide⟩
  · exact claim5_output_shape _ _ _ 3 (by decide) (by decide) (by decide) (by decide)

/-- C6 witness: the C6 theorem applied to the notebook data with k = 7 > N = 5
and the strict majority label 0. -/
theorem claim6_witness :
    ((([[1,2],[2,3],[3,3],[5,4],[6,5]] : List (List ℚ)).length : ℤ) ≤ 7) ∧
    (knn_predict [[1,2],[2,3],[3,3],[5,4],[6,5]] [0,0,0,1,1] [[1,2],[5,3]] 7 =
      knn_predict [[1,2],[2,3],[3,3],[5,4],[6,5]] [0,0,0,1,1] [[1,2],[5,3]]
        (([[1,2],[2,3],[3,3],[5,4],[6,5]] : List (List ℚ)).length : ℤ) ∧
    (∀ c : ℤ, c ∈ ([0,0,0,1,1] : List ℤ) →
      (∀ l ∈ ([0,0,0,1,1] : List ℤ), l ≠ c →
        ([0,0,0,1,1] : List ℤ).count l < ([0,0,0,1,1] : List ℤ).count c) →
      (∀ x ∈ ([[1,2],[2,3],[3,3],[5,4],[6,5]] : List (List ℚ)),
        ∀ q ∈ ([[1,2],[5,3]] : List (List ℚ)), x.length = q.length) →
      ([0,0,0,1,1] : List ℤ).length =
        ([[1,2],[2,3],[3,3],[5,4],[6,5]] : List (List ℚ)).length →
      ([[1,2],[2,3],[3,3],[5,4],[6,5]] : List (List ℚ)) ≠ [] →
      ∃ out, knn_predict [[1,2],[2,3],[3,3],[5,4],[6,5]] [0,0,0,1,1]
          [[1,2],[5,3]] 7 = some out ∧ ∀ p ∈ out, p = c)) := by
  exact ⟨by decide, claim6_k_clamped _ _ _ 7 (by decide)⟩

/-- C7 witness: the C7 theorem applied to the notebook data at query position
1 (query point [5,3]), whose unique closest training point is index 3, the
point [5,4] with label 1; the strict-distance hypothesis is discharged by the
monotonicity of the square root. -/
theorem claim7_witness :
    ((∀ x ∈ ([[1,2],[2,3],[3,3],[5,4],[6,5]] : List (List ℚ)),
        ∀ t ∈ ([[1,2],[5,3]] : List (List ℚ)), x.length = t.length) ∧
      ([0,0,0,1,1] : List ℤ).length =
        ([[1,2],[2,3],[3,3],[5,4],[6,5]] : List (List ℚ)).length ∧
      ([[1,2],[5,3]] : List (List ℚ))[1]? = some [5,3] ∧
      3 < ([[1,2],[2,3],[3,3],[5,4],[6,5]] : List (List ℚ)).length ∧
      (∀ j < ([[1,2],[2,3],[3,3],[5,4],[6,5]] : List (List ℚ)).length, j ≠ 3 →
        euclidDist [5,3]
            (([[1,2],[2,3],[3,3],[5,4],[6,5]] : List (List ℚ)).getD 3 []) <
          euclidDist [5,3]
            (([[1,2],[2,3],[3,3],[5,4],[6,5]] : List (List ℚ)).getD j []))) ∧
    (∃ out, knn_predict [[1,2],[2,3],[3,3],[5,4],[6,5]] [0,0,0,1,1]
        [[1,2],[5,3]] 1 = some out ∧
      out[1]? = some (([0,0,0,1,1] : List ℤ).getD 3 0)) := by
  have hmin : ∀ j < ([[1,2],[2,3],[3,3],[5,4],[6,5]] : List (List ℚ)).length,
      j ≠ 3 →
      euclidDist [5,3]
          (([[1,2],[2,3],[3,3],[5,4],[6,5]] : List (List ℚ)).getD 3 []) <
        euclidDist [5,3]
          (([[1,2],[2,3],[3,3],[5,4],[6,5]] : List (List ℚ)).getD j []) := by
    intro j hj hne
    have hj5 : j < 5 := by simpa using hj
    clear hj
    interval_cases j
    · exact euclidDist_lt_of_sqDistL_lt (by norm_num [sqDistL])
    · exact euclidDist_lt_of_sqDistL_lt (by norm_num [sqDistL])
    · exact euclidDist_lt_of_sqDistL_lt (by norm_num [sqDistL])
    · exact absurd rfl hne
    · exact euclidDist_lt_of_sqDistL_lt (by norm_num [sqDistL])
  refine ⟨⟨by decide, by decide, by simp, by decide, hmin⟩, ?_⟩
  exact claim7_k1_unique_nearest _ _ _ 1 [5,3] 3
    (by decide) (by decide) (by simp) (by decide) hmin

/-- C8 witness: the determinism theorem applied at the notebook data. -/
theorem claim8_witness :
    (([[1,2],[2,3],[3,3],[5,4],[6,5]] : List (List ℚ)) =
        [[1,2],[2,3],[3,3],[5,4],[6,5]] ∧
      ([0,0,0,1,1] : List ℤ) = [0,0,0,1,1] ∧
      ([[1,2],[5,3]] : List (List ℚ)) = [[1,2],[5,3]] ∧ (3 : ℤ) = 3) ∧
    knn_predict [[1,2],[2,3],[3,3],[5,4],[6,5]] [0,0,0,1,1] [[1,2],[5,3]] 3 =
      knn_predict [[1,2],[2,3],[3,3],[5,4],[6,5]] [0,0,0,1,1] [[1,2],[5,3]] 3 :=
  ⟨⟨rfl, rfl, rfl, rfl⟩,
    claim8_deterministic _ _ _ _ _ _ _ _ rfl rfl rfl rfl⟩

/-- C9 witness: the C9 theorem applied to the notebook data with k = 3. -/
theorem claim9_witness :
    ((∀ x ∈ ([[1,2],[2,3],[3,3],[5,4],[6,5]] : List (List ℚ)),
        ∀ t ∈ ([[1,2],[5,3]] : List (List ℚ)), x.length = t.length) ∧
      ([0,0,0,1,1] : List ℤ).length =
        ([[1,2],[2,3],[3,3],[5,4],[6,5]] : List (List ℚ)).length ∧
      ([[1,2],[2,3],[3,3],[5,4],[6,5]] : List (List ℚ)) ≠ [] ∧ (1 : ℤ) ≤ 3) ∧
    (∃ out, knn_predict [[1,2],[2,3],[3,3],[5,4],[6,5]] [0,0,0,1,1]
        [[1,2],[5,3]] 3 = some out ∧
      (∀ p ∈ out, p ∈ ([0,0,0,1,1] : List ℤ)) ∧
      ∀ c : ℤ, (∀ l ∈ ([0,0,0,1,1] : List ℤ), l = c) → ∀ p ∈ out, p = c) := by
  constructor
  · exact ⟨by decide, by decide, by decide, by decide⟩
  · exact claim9_labels_from_training _ _ _ 3 (by decide) (by decide) (by decide)
      (by decide)
end KNNSpec
